import Mathlib

/-!
Shallow embedding of `src/santa_hmm.py`, an HMM inference library built on
numpy: forward filtering, backward messages, forward-backward smoothing,
Viterbi decoding and ancestral sequence generation, each in a categorical
flavour (`forwardHMM`, ...) and a Gaussian flavour (`forwardHMMG`, ...).

Modelling choices:
* numpy float arrays become vectors `Fin N → K` over a linear ordered field
  `K` (rationals in all concrete instances); a `(T+1) × N` result matrix
  becomes a `List (Fin N → K)` of its rows.
* The categorical and Gaussian variants share their recursions and differ
  only in the per-timestep emission-likelihood vector, so the recursions are
  embedded once, parameterised by the list `liks` of emission vectors
  (`liks = [lik(obs 0), ..., lik(obs (T-1))]`); `forwardHMM` instantiates
  with the categorical table lookups of the source.
* numpy division by zero (`v / v.sum()` with zero sum) yields NaN rows at
  runtime without raising; in the field embedding division by zero yields
  the junk value 0, so a zero-sum normalisation produces the zero row — in
  both cases the call returns normally with a non-distribution row, which is
  what the error-handling claims are about.
* Randomness (`np.random.sample`, `np.random.normal`) is an external
  collaborator; it is embedded as explicit streams `u : ℕ → K` of uniform
  draws and `z : ℕ → K` of standard normal draws, consumed in program order.
-/

namespace SantaHMM

variable {K : Type} [LinearOrderedField K]

/-- Zero row, the default used for out-of-range list indexing in statements
(never actually reached at in-range indices). -/
def zeroRow {N : ℕ} : Fin N → K := fun _ => 0

/-- `v.sum()` of a length-`N` numpy vector. -/
def vecSum {N : ℕ} (v : Fin N → K) : K := ∑ j, v j

/-- `v / v.sum()`: renormalisation of a row, as written in the source. -/
def normRow {N : ℕ} (v : Fin N → K) : Fin N → K := fun j => v j / vecSum v

/-- `np.dot(A.T, f)`: entry `j` is `∑ i, A i j * f i`. -/
def dotT {N : ℕ} (A : Fin N → Fin N → K) (f : Fin N → K) : Fin N → K :=
  fun j => ∑ i, A i j * f i

/-- The unnormalised forward update
`v = lik ⊙ np.dot(A.T, f[t])` of `forwardHMM` / `forwardHMMG`. -/
def forwardStep {N : ℕ} (A : Fin N → Fin N → K) (lik f : Fin N → K) : Fin N → K :=
  fun j => lik j * dotT A f j

/-- Row `t` of the forward matrix: `f[0] = pi`,
`f[t+1] = v / v.sum()` with `v = forwardStep A lik[t] f[t]`
(lines 59-64 of the source, with the emission lookups abstracted into
`liks`). -/
def forwardF {N : ℕ} (piv : Fin N → K) (A : Fin N → Fin N → K)
    (liks : List (Fin N → K)) : ℕ → Fin N → K
  | 0 => piv
  | t + 1 => normRow (forwardStep A (liks.getD t zeroRow) (forwardF piv A liks t))

/-- The full `(T+1)`-row matrix returned by `forwardHMM` / `forwardHMMG`,
where `liks` is the list of per-timestep emission-likelihood vectors. -/
def forwardGen {N : ℕ} (piv : Fin N → K) (A : Fin N → Fin N → K)
    (liks : List (Fin N → K)) : List (Fin N → K) :=
  (List.range (liks.length + 1)).map (forwardF piv A liks)

/-- Categorical HMM datastructure (class `HMM` of the source): initial
distribution `pi`, transition matrix `A`, and the three per-channel
emission tables `Bk` indexed symbol-first as in `hmm.B1[obs[0,t]]`. -/
structure HMMcat (N S1 S2 S3 : ℕ) (K : Type) where
  piv : Fin N → K
  A : Fin N → Fin N → K
  B1 : Fin S1 → Fin N → K
  B2 : Fin S2 → Fin N → K
  B3 : Fin S3 → Fin N → K

/-- Emission-likelihood vector of one observation triple:
`hmm.B1[o1] * hmm.B2[o2] * hmm.B3[o3]` (line 63 of the source). -/
def likCat {N S1 S2 S3 : ℕ} (h : HMMcat N S1 S2 S3 K)
    (o : Fin S1 × Fin S2 × Fin S3) : Fin N → K :=
  fun j => h.B1 o.1 j * h.B2 o.2.1 j * h.B3 o.2.2 j

/-- `forwardHMM(hmm, obs)` of the source: the generic forward recursion run
on the categorical emission lookups. -/
def forwardHMM {N S1 S2 S3 : ℕ} (h : HMMcat N S1 S2 S3 K)
    (obs : List (Fin S1 × Fin S2 × Fin S3)) : List (Fin N → K) :=
  forwardGen h.piv h.A (obs.map (likCat h))

/-- One backward update `np.dot(A, lik ⊙ b[t])` (line 99 of the source):
entry `i` is `∑ j, A i j * (lik j * b j)`. -/
def backRow {N : ℕ} (A : Fin N → Fin N → K) (lik b : Fin N → K) : Fin N → K :=
  fun i => ∑ j, A i j * (lik j * b j)

/-- `backwardHMM` with the final message abstracted: `b[T] = bT`, and
`b[t-1] = backRow A lik[t-1] b[t]` for `t` from `T` down to 1; no
renormalisation (lines 95-101 of the source). -/
def backwardGen {N : ℕ} (A : Fin N → Fin N → K) (liks : List (Fin N → K))
    (bT : Fin N → K) : List (Fin N → K) :=
  liks.foldr (fun lik b => backRow A lik (b.headD zeroRow) :: b) [bT]

/-- `backwardHMMG` with the final message abstracted: same recursion but
each stored row is renormalised, `b[t-1] = v / v.sum()`
(lines 113-122 of the source). -/
def backwardGenNorm {N : ℕ} (A : Fin N → Fin N → K) (liks : List (Fin N → K))
    (bT : Fin N → K) : List (Fin N → K) :=
  liks.foldr (fun lik b => normRow (backRow A lik (b.headD zeroRow)) :: b) [bT]

/-- `backwardHMM(hmm, obs)` of the source: final message is the constant
vector `10000000` (line 96). -/
def backwardHMM {N S1 S2 S3 : ℕ} (h : HMMcat N S1 S2 S3 K)
    (obs : List (Fin S1 × Fin S2 × Fin S3)) : List (Fin N → K) :=
  backwardGen h.A (obs.map (likCat h)) (fun _ => 10000000)

/-- Elementwise product of two rows, `f * b`. -/
def prodRow {N : ℕ} (f b : Fin N → K) : Fin N → K := fun j => f j * b j

/-- `post = f * b; post = post / post.sum(1)[:,None]` (lines 138-140): the
elementwise product of the forward and backward matrices, each row divided
by its own sum. -/
def smoothRows {N : ℕ} (f b : List (Fin N → K)) : List (Fin N → K) :=
  (List.zipWith prodRow f b).map normRow

/-- `forward_backwardHMM` with the emission vectors abstracted. -/
def forward_backwardGen {N : ℕ} (piv : Fin N → K) (A : Fin N → Fin N → K)
    (liks : List (Fin N → K)) : List (Fin N → K) :=
  smoothRows (forwardGen piv A liks) (backwardGen A liks (fun _ => 10000000))

/-- `forward_backwardHMMG` with the emission vectors abstracted: normalised
backward recursion, final backward message `1000` (line 114). -/
def forward_backwardGenNorm {N : ℕ} (piv : Fin N → K) (A : Fin N → Fin N → K)
    (liks : List (Fin N → K)) : List (Fin N → K) :=
  smoothRows (forwardGen piv A liks) (backwardGenNorm A liks (fun _ => 1000))

/-- `forward_backwardHMM(hmm, obs)` of the source (lines 124-141). -/
def forward_backwardHMM {N S1 S2 S3 : ℕ} (h : HMMcat N S1 S2 S3 K)
    (obs : List (Fin S1 × Fin S2 × Fin S3)) : List (Fin N → K) :=
  smoothRows (forwardHMM h obs) (backwardHMM h obs)

/- Basic facts about normalisation and list indexing used throughout. -/

theorem vecSum_normRow {N : ℕ} (v : Fin N → K) (h : vecSum v ≠ 0) :
    vecSum (normRow v) = 1 := by
  unfold vecSum normRow
  rw [← Finset.sum_div]
  exact div_self h

theorem getD_range_map {α : Type} (f : ℕ → α) (n t : ℕ) (d : α) (h : t < n) :
    ((List.range n).map f).getD t d = f t := by
  have hl : t < ((List.range n).map f).length := by simpa using h
  rw [List.getD_eq_getElem _ _ hl, List.getElem_map, List.getElem_range]

theorem length_forwardGen {N : ℕ} (piv : Fin N → K) (A : Fin N → Fin N → K)
    (liks : List (Fin N → K)) :
    (forwardGen piv A liks).length = liks.length + 1 := by
  unfold forwardGen
  rw [List.length_map, List.length_range]

theorem getD_forwardGen {N : ℕ} (piv : Fin N → K) (A : Fin N → Fin N → K)
    (liks : List (Fin N → K)) (t : ℕ) (h : t ≤ liks.length) :
    (forwardGen piv A liks).getD t zeroRow = forwardF piv A liks t :=
  getD_range_map _ _ _ _ (Nat.lt_succ_of_le h)

theorem length_backwardGen {N : ℕ} (A : Fin N → Fin N → K) (liks : List (Fin N → K))
    (bT : Fin N → K) : (backwardGen A liks bT).length = liks.length + 1 := by
  induction liks with
  | nil => rfl
  | cons lik rest ih => simpa [backwardGen] using ih

theorem length_backwardGenNorm {N : ℕ} (A : Fin N → Fin N → K) (liks : List (Fin N → K))
    (bT : Fin N → K) : (backwardGenNorm A liks bT).length = liks.length + 1 := by
  induction liks with
  | nil => rfl
  | cons lik rest ih => simpa [backwardGenNorm] using ih

theorem getD_last_backwardGen {N : ℕ} (A : Fin N → Fin N → K) (liks : List (Fin N → K))
    (bT : Fin N → K) : (backwardGen A liks bT).getD liks.length zeroRow = bT := by
  induction liks with
  | nil => rfl
  | cons lik rest ih => simpa [backwardGen] using ih

theorem getD_last_backwardGenNorm {N : ℕ} (A : Fin N → Fin N → K) (liks : List (Fin N → K))
    (bT : Fin N → K) : (backwardGenNorm A liks bT).getD liks.length zeroRow = bT := by
  induction liks with
  | nil => rfl
  | cons lik rest ih => simpa [backwardGenNorm] using ih

theorem length_smoothRows {N : ℕ} (f b : List (Fin N → K)) :
    (smoothRows f b).length = min f.length b.length := by
  simp [smoothRows]

theorem getD_smoothRows {N : ℕ} (f b : List (Fin N → K)) (t : ℕ)
    (hf : t < f.length) (hb : t < b.length) :
    (smoothRows f b).getD t zeroRow =
      normRow (prodRow (f.getD t zeroRow) (b.getD t zeroRow)) := by
  induction f generalizing b t with
  | nil => simp at hf
  | cons a as ih =>
    cases b with
    | nil => simp at hb
    | cons r rs =>
      cases t with
      | zero => rfl
      | succ s =>
        have hs := ih rs s (by simpa using hf) (by simpa using hb)
        simpa [smoothRows] using hs

theorem vecSum_smoothRows_getD {N : ℕ} (f b : List (Fin N → K))
    (hnz : ∀ r ∈ List.zipWith prodRow f b, vecSum r ≠ 0) (t : ℕ)
    (hf : t < f.length) (hb : t < b.length) :
    vecSum ((smoothRows f b).getD t zeroRow) = 1 := by
  have hlen : t < (List.zipWith prodRow f b).length := by
    rw [List.length_zipWith]; omega
  have hz : (List.zipWith prodRow f b).getD t zeroRow =
      prodRow (f.getD t zeroRow) (b.getD t zeroRow) := by
    rw [List.getD_eq_getElem _ _ hlen, List.getD_eq_getElem _ _ hf,
      List.getD_eq_getElem _ _ hb, List.getElem_zipWith]
  have hmem : prodRow (f.getD t zeroRow) (b.getD t zeroRow) ∈ List.zipWith prodRow f b := by
    rw [← hz, List.getD_eq_getElem _ _ hlen]
    exact List.getElem_mem hlen
  rw [getD_smoothRows f b t hf hb]
  exact vecSum_normRow _ (hnz _ hmem)

theorem normRow_prod_const {N : ℕ} (piv : Fin N → K) (c : K) (hpi : vecSum piv = 1)
    (hc : c ≠ 0) : normRow (prodRow piv (fun _ => c)) = piv := by
  funext j
  have hsum : vecSum (prodRow piv (fun _ => c)) = c := by
    unfold vecSum prodRow
    rw [← Finset.sum_mul]
    rw [show (∑ j, piv j) = 1 from hpi, one_mul]
  unfold normRow
  rw [hsum]
  exact mul_div_cancel_right₀ (piv j) hc

/-- C1: for a valid model (`pi` sums to 1) and an observation sequence of
length `T` none of whose timesteps has zero total likelihood, the forward
recursion (`forwardHMM` / `forwardHMMG`, both instances of `forwardGen` with
their respective emission-likelihood lists) returns a `(T+1)`-row matrix
whose row 0 is `pi`, whose row `t+1` is the elementwise product of the
emission vector for `obs[t]` with `Aᵀ · f[t]`, divided by its sum; every row
sums to 1, and for `T = 0` the output is exactly `[pi]`. -/
theorem C1_forward_filtering {N : ℕ} (piv : Fin N → K) (A : Fin N → Fin N → K)
    (liks : List (Fin N → K))
    (hpi : vecSum piv = 1)
    (hnz : ∀ t, t < liks.length →
      vecSum (forwardStep A (liks.getD t zeroRow) (forwardF piv A liks t)) ≠ 0) :
    (forwardGen piv A liks).length = liks.length + 1 ∧
    (forwardGen piv A liks).getD 0 zeroRow = piv ∧
    (∀ t, t < liks.length →
      (forwardGen piv A liks).getD (t + 1) zeroRow =
        normRow (forwardStep A (liks.getD t zeroRow)
          ((forwardGen piv A liks).getD t zeroRow))) ∧
    (∀ t, t ≤ liks.length → vecSum ((forwardGen piv A liks).getD t zeroRow) = 1) ∧
    (liks = [] → forwardGen piv A liks = [piv]) := by
  refine ⟨length_forwardGen piv A liks, ?_, ?_, ?_, ?_⟩
  · exact getD_forwardGen piv A liks 0 (Nat.zero_le _)
  · intro t ht
    rw [getD_forwardGen piv A liks (t + 1) ht,
      getD_forwardGen piv A liks t (Nat.le_of_lt ht)]
    rfl
  · intro t ht
    rw [getD_forwardGen piv A liks t ht]
    cases t with
    | zero => exact hpi
    | succ s =>
      exact vecSum_normRow _ (hnz s (Nat.lt_of_succ_le ht))
  · intro h
    subst h
    rfl

/-- Concrete instantiation of C1 on a two-state model (`pi = [1/2, 1/2]`,
`A = [[9/10, 1/10], [1/10, 9/10]]`) and one observation with emission vector
`[9/10, 1/10]`: both hypotheses hold and row 1 sums to 1. -/
theorem C1_forward_filtering_witness :
    vecSum ![(1:ℚ)/2, 1/2] = 1 ∧
    vecSum ((forwardGen ![(1:ℚ)/2, 1/2] ![![(9:ℚ)/10, 1/10], ![(1:ℚ)/10, 9/10]]
      [![(9:ℚ)/10, 1/10]]).getD 1 zeroRow) = 1 := by
  refine ⟨by norm_num [vecSum, Fin.sum_univ_succ], ?_⟩
  refine (C1_forward_filtering ![(1:ℚ)/2, 1/2] ![![(9:ℚ)/10, 1/10], ![(1:ℚ)/10, 9/10]]
    [![(9:ℚ)/10, 1/10]] (by norm_num [vecSum, Fin.sum_univ_succ]) ?_).2.2.2.1 1 (by norm_num)
  intro t ht
  have h0 : t = 0 := Nat.lt_one_iff.mp (by simpa using ht)
  subst h0
  norm_num [vecSum, forwardStep, forwardF, dotT, Fin.sum_univ_succ]

/- Expansion lemmas for length-one observation sequences, used to evaluate
the embedded functions on concrete inputs. -/

theorem forwardGen_one {N : ℕ} (piv : Fin N → K) (A : Fin N → Fin N → K)
    (l : Fin N → K) : forwardGen piv A [l] = [piv, normRow (forwardStep A l piv)] := rfl

theorem backwardGen_one {N : ℕ} (A : Fin N → Fin N → K) (l bT : Fin N → K) :
    backwardGen A [l] bT = [backRow A l bT, bT] := rfl

theorem backwardGenNorm_one {N : ℕ} (A : Fin N → Fin N → K) (l bT : Fin N → K) :
    backwardGenNorm A [l] bT = [normRow (backRow A l bT), bT] := rfl

theorem smoothRows_two {N : ℕ} (f0 f1 b0 b1 : Fin N → K) :
    smoothRows [f0, f1] [b0, b1] =
      [normRow (prodRow f0 b0), normRow (prodRow f1 b1)] := rfl

theorem vecSum_fin_one (v : Fin 1 → K) : vecSum v = v 0 := by
  simp [vecSum]

/-- A valid one-state categorical model (two symbols per channel) whose
channel-1 symbol 0 has probability 0 in every state: observing it gives a
zero-likelihood timestep. -/
def hZero : HMMcat 1 2 2 2 ℚ :=
  ⟨![1], ![![1]], ![![0], ![1]], ![![1/2], ![1/2]], ![![1/2], ![1/2]]⟩

/-- C2 as frozen is false: on the valid model `hZero` and the single
observation `(0,0,0)` (a zero-likelihood timestep) row 0 of the posterior
returned by `forward_backwardHMM` does not sum to 1 — the division by the
zero row sum yields a junk (NaN in numpy) row, not a distribution. -/
theorem C2_smoother_cex :
    vecSum hZero.piv = 1 ∧ (∀ i, vecSum (hZero.A i) = 1) ∧
    (∀ j, (∑ s, hZero.B1 s j) = 1) ∧ (∀ j, (∑ s, hZero.B2 s j) = 1) ∧
    (∀ j, (∑ s, hZero.B3 s j) = 1) ∧
    vecSum ((forward_backwardHMM hZero [((0 : Fin 2), (0 : Fin 2), (0 : Fin 2))]).getD 0
      zeroRow) ≠ 1 := by
  refine ⟨by norm_num [hZero, vecSum_fin_one], fun i => by norm_num [hZero, vecSum_fin_one], ?_, ?_, ?_, ?_⟩
  · intro j; norm_num [hZero, Fin.sum_univ_succ]
  · intro j; norm_num [hZero, Fin.sum_univ_succ]
  · intro j; norm_num [hZero, Fin.sum_univ_succ]
  · show vecSum ((smoothRows (forwardHMM hZero _) (backwardHMM hZero _)).getD 0 zeroRow) ≠ 1
    rw [show forwardHMM hZero [((0 : Fin 2), (0 : Fin 2), (0 : Fin 2))] =
        forwardGen hZero.piv hZero.A [likCat hZero (0, 0, 0)] from rfl,
      show backwardHMM hZero [((0 : Fin 2), (0 : Fin 2), (0 : Fin 2))] =
        backwardGen hZero.A [likCat hZero (0, 0, 0)] (fun _ => 10000000) from rfl,
      forwardGen_one, backwardGen_one, smoothRows_two]
    norm_num [hZero, likCat, prodRow, normRow, backRow, forwardStep, dotT,
      vecSum_fin_one, Fin.sum_univ_one]

/-- C2 amended: as stated the claim omits the zero-likelihood caveat; with
every row of `f ⊙ b` having a nonzero sum, both smoothers
(`forward_backwardHMM` / `forward_backwardHMMG`, embedded as
`forward_backwardGen` / `forward_backwardGenNorm` over the abstracted
emission lists) return exactly the row-normalised elementwise product of
the forward and backward matrices, every row of the `(T+1)`-row posterior
sums to 1, and for `T = 0` row 0 of the posterior is `pi`. -/
theorem C2_smoother_amended {N : ℕ} (piv : Fin N → K) (A : Fin N → Fin N → K)
    (liks : List (Fin N → K)) (hpi : vecSum piv = 1)
    (hnz1 : ∀ r ∈ List.zipWith prodRow (forwardGen piv A liks)
      (backwardGen A liks (fun _ => 10000000)), vecSum r ≠ 0)
    (hnz2 : ∀ r ∈ List.zipWith prodRow (forwardGen piv A liks)
      (backwardGenNorm A liks (fun _ => 1000)), vecSum r ≠ 0) :
    forward_backwardGen piv A liks =
      smoothRows (forwardGen piv A liks) (backwardGen A liks (fun _ => 10000000)) ∧
    forward_backwardGenNorm piv A liks =
      smoothRows (forwardGen piv A liks) (backwardGenNorm A liks (fun _ => 1000)) ∧
    (forward_backwardGen piv A liks).length = liks.length + 1 ∧
    (forward_backwardGenNorm piv A liks).length = liks.length + 1 ∧
    (∀ t, t ≤ liks.length →
      vecSum ((forward_backwardGen piv A liks).getD t zeroRow) = 1) ∧
    (∀ t, t ≤ liks.length →
      vecSum ((forward_backwardGenNorm piv A liks).getD t zeroRow) = 1) ∧
    (liks = [] → (forward_backwardGen piv A liks).getD 0 zeroRow = piv ∧
      (forward_backwardGenNorm piv A liks).getD 0 zeroRow = piv) := by
  refine ⟨rfl, rfl, ?_, ?_, ?_, ?_, ?_⟩
  · rw [forward_backwardGen, length_smoothRows, length_forwardGen, length_backwardGen]
    omega
  · rw [forward_backwardGenNorm, length_smoothRows, length_forwardGen, length_backwardGenNorm]
    omega
  · intro t ht
    exact vecSum_smoothRows_getD _ _ hnz1 t
      (by rw [length_forwardGen]; omega) (by rw [length_backwardGen]; omega)
  · intro t ht
    exact vecSum_smoothRows_getD _ _ hnz2 t
      (by rw [length_forwardGen]; omega) (by rw [length_backwardGenNorm]; omega)
  · intro h
    subst h
    constructor
    · show (smoothRows [piv] [fun _ => 10000000]).getD 0 zeroRow = piv
      show normRow (prodRow piv (fun _ => 10000000)) = piv
      exact normRow_prod_const piv 10000000 hpi (by norm_num)
    · show (smoothRows [piv] [fun _ => 1000]).getD 0 zeroRow = piv
      show normRow (prodRow piv (fun _ => 1000)) = piv
      exact normRow_prod_const piv 1000 hpi (by norm_num)

/-- Concrete instantiation of the amended C2 on a one-state model with one
positive-likelihood observation: all hypotheses hold and row 0 of the
posterior sums to 1. -/
theorem C2_smoother_witness :
    vecSum (![1] : Fin 1 → ℚ) = 1 ∧
    vecSum ((forward_backwardGen ![(1:ℚ)] ![![(1:ℚ)]] [![(1:ℚ)/2]]).getD 0 zeroRow) = 1 := by
  refine ⟨by norm_num [vecSum_fin_one], ?_⟩
  refine (C2_smoother_amended ![(1:ℚ)] ![![(1:ℚ)]] [![(1:ℚ)/2]]
    (by norm_num [vecSum_fin_one]) ?_ ?_).2.2.2.2.1 0 (by norm_num)
  · rw [forwardGen_one, backwardGen_one]
    intro r hr
    rcases List.mem_cons.mp hr with h | hr2
    · subst h
      norm_num [prodRow, normRow, forwardStep, backRow, dotT, vecSum_fin_one,
        Fin.sum_univ_one]
    rcases List.mem_cons.mp hr2 with h | hr3
    · subst h
      norm_num [prodRow, normRow, forwardStep, backRow, dotT, vecSum_fin_one,
        Fin.sum_univ_one]
    · simp at hr3
  · rw [forwardGen_one, backwardGenNorm_one]
    intro r hr
    rcases List.mem_cons.mp hr with h | hr2
    · subst h
      norm_num [prodRow, normRow, forwardStep, backRow, dotT, vecSum_fin_one,
        Fin.sum_univ_one]
    rcases List.mem_cons.mp hr2 with h | hr3
    · subst h
      norm_num [prodRow, normRow, forwardStep, backRow, dotT, vecSum_fin_one,
        Fin.sum_univ_one]
    · simp at hr3

/- Scaling lemmas: the backward recursion is linear in its final message,
and renormalisation is invariant under a common nonzero scale. -/

/-- Row scaled by a constant. -/
def smulRow {N : ℕ} (a : K) (v : Fin N → K) : Fin N → K := fun j => a * v j

theorem backRow_smul {N : ℕ} (A : Fin N → Fin N → K) (lik : Fin N → K) (a : K)
    (b : Fin N → K) : backRow A lik (smulRow a b) = smulRow a (backRow A lik b) := by
  funext i
  unfold backRow smulRow
  rw [Finset.mul_sum]
  exact Finset.sum_congr rfl fun j _ => by ring

theorem backwardGen_ne_nil {N : ℕ} (A : Fin N → Fin N → K) (liks : List (Fin N → K))
    (bT : Fin N → K) : backwardGen A liks bT ≠ [] := by
  cases liks with
  | nil => simp [backwardGen]
  | cons lik rest => simp [backwardGen]

theorem headD_map_smul {N : ℕ} (a : K) (l : List (Fin N → K)) (h : l ≠ []) :
    (l.map (smulRow a)).headD zeroRow = smulRow a (l.headD zeroRow) := by
  cases l with
  | nil => exact absurd rfl h
  | cons x xs => rfl

theorem backwardGen_smul {N : ℕ} (A : Fin N → Fin N → K) (liks : List (Fin N → K))
    (a : K) (bT : Fin N → K) :
    backwardGen A liks (smulRow a bT) = (backwardGen A liks bT).map (smulRow a) := by
  induction liks with
  | nil => rfl
  | cons lik rest ih =>
    show backRow A lik ((backwardGen A rest (smulRow a bT)).headD zeroRow) ::
        backwardGen A rest (smulRow a bT) =
      (backRow A lik ((backwardGen A rest bT).headD zeroRow) ::
        backwardGen A rest bT).map (smulRow a)
    rw [ih, headD_map_smul a _ (backwardGen_ne_nil A rest bT), backRow_smul,
      List.map_cons]

theorem normRow_smul {N : ℕ} (a : K) (v : Fin N → K) (ha : a ≠ 0) :
    normRow (smulRow a v) = normRow v := by
  funext j
  have hsum : vecSum (smulRow a v) = a * vecSum v := by
    unfold vecSum smulRow
    exact (Finset.mul_sum _ _ _).symm
  unfold normRow
  rw [hsum]
  show a * v j / (a * vecSum v) = v j / vecSum v
  exact mul_div_mul_left (v j) (vecSum v) ha

theorem prodRow_smul_right {N : ℕ} (a : K) (f b : Fin N → K) :
    prodRow f (smulRow a b) = smulRow a (prodRow f b) := by
  funext j
  unfold prodRow smulRow
  ring

theorem zipWith_prod_smul {N : ℕ} (a : K) : ∀ (f b : List (Fin N → K)),
    List.zipWith (fun x y => prodRow x (smulRow a y)) f b =
      (List.zipWith prodRow f b).map (smulRow a)
  | [], _ => by simp
  | _ :: _, [] => by simp
  | x :: xs, y :: ys => by
    rw [List.zipWith_cons_cons, List.zipWith_cons_cons, List.map_cons,
      zipWith_prod_smul a xs ys, prodRow_smul_right]

/-- C10: replacing the constant `10000000` that initialises the final
backward message of `backwardHMM` by any other strictly positive constant
`c` leaves the smoothing posterior of `forward_backwardHMM` unchanged: the
backward recursion is linear in the final message, so the common factor
cancels in the per-row normalisation of `f ⊙ b`. -/
theorem C10_backward_init_invariance {N : ℕ} (piv : Fin N → K)
    (A : Fin N → Fin N → K) (liks : List (Fin N → K)) (c : K) (hc : 0 < c)
    (_hnz : ∀ r ∈ List.zipWith prodRow (forwardGen piv A liks)
      (backwardGen A liks (fun _ => 10000000)), vecSum r ≠ 0) :
    smoothRows (forwardGen piv A liks) (backwardGen A liks (fun _ => c)) =
      forward_backwardGen piv A liks := by
  have hconst : (fun _ => c : Fin N → K) =
      smulRow (c / 10000000) (fun _ => 10000000) := by
    funext j
    exact (div_mul_cancel₀ c (by norm_num)).symm
  have ha : c / 10000000 ≠ (0 : K) := by
    refine div_ne_zero (ne_of_gt hc) (by norm_num)
  rw [hconst, backwardGen_smul]
  unfold forward_backwardGen smoothRows
  rw [List.zipWith_map_right]
  rw [zipWith_prod_smul, List.map_map]
  refine List.map_congr_left fun r _ => ?_
  exact normRow_smul (c / 10000000) r ha

/-- Concrete instantiation of C10: on a one-state model with one
observation, initialising the backward message with 5 instead of 10000000
yields the identical posterior. -/
theorem C10_backward_init_invariance_witness :
    smoothRows (forwardGen ![(1:ℚ)] ![![(1:ℚ)]] [![(1:ℚ)/2]])
      (backwardGen ![![(1:ℚ)]] [![(1:ℚ)/2]] (fun _ => 5)) =
      forward_backwardGen ![(1:ℚ)] ![![(1:ℚ)]] [![(1:ℚ)/2]] := by
  refine C10_backward_init_invariance ![(1:ℚ)] ![![(1:ℚ)]] [![(1:ℚ)/2]] 5
    (by norm_num) ?_
  rw [forwardGen_one, backwardGen_one]
  intro r hr
  rcases List.mem_cons.mp hr with h | hr2
  · subst h
    norm_num [prodRow, normRow, forwardStep, backRow, dotT, vecSum_fin_one,
      Fin.sum_univ_one]
  rcases List.mem_cons.mp hr2 with h | hr3
  · subst h
    norm_num [prodRow, normRow, forwardStep, backRow, dotT, vecSum_fin_one,
      Fin.sum_univ_one]
  · simp at hr3

/-- C6 evaluation: on the valid model `hZero` the observation `(0,0,0)` has
likelihood 0 in every state, yet `forwardHMM` returns normally — a full
2-row matrix whose row 1 is the junk result of dividing by the zero sum
(`NaN` in numpy, the zero row in this exact embedding) — instead of
surfacing a distinct zero-likelihood-observation failure. -/
theorem C6_zero_likelihood_eval :
    (forwardHMM hZero [((0 : Fin 2), (0 : Fin 2), (0 : Fin 2))]).length = 2 ∧
    vecSum ((forwardHMM hZero [((0 : Fin 2), (0 : Fin 2), (0 : Fin 2))]).getD 1
      zeroRow) = 0 := by
  constructor
  · show (forwardGen hZero.piv hZero.A [likCat hZero (0, 0, 0)]).length = 2
    rw [forwardGen_one]
    rfl
  · show vecSum ((forwardGen hZero.piv hZero.A [likCat hZero (0, 0, 0)]).getD 1
      zeroRow) = 0
    rw [forwardGen_one]
    norm_num [normRow, forwardStep, dotT, likCat, hZero, vecSum_fin_one,
      Fin.sum_univ_one, zeroRow]

/- Viterbi decoding (lines 162-222 of the source).  `np.argmax` scans
linearly and keeps the current best, replacing it only on a strictly
greater value, so ties resolve to the lowest index. -/

/-- `tmp.argmax(0)`-style argmax over the states of a nonempty model. -/
def argmaxIdx {n : ℕ} (v : Fin (n + 1) → K) : Fin (n + 1) :=
  (List.finRange (n + 1)).foldl (fun best i => if v best < v i then i else best) 0

/-- `tmp.max(0)`-style maximum over the states of a nonempty model. -/
def maxVal {n : ℕ} (v : Fin (n + 1) → K) : K :=
  Finset.univ.sup' Finset.univ_nonempty v

theorem le_maxVal {n : ℕ} (v : Fin (n + 1) → K) (i : Fin (n + 1)) : v i ≤ maxVal v :=
  Finset.le_sup' v (Finset.mem_univ i)

theorem le_foldl_argmax {α : Type} (v : α → K) :
    ∀ (l : List α) (b : α),
      v b ≤ v (l.foldl (fun best i => if v best < v i then i else best) b)
  | [], _ => le_refl _
  | i :: l, b => by
    have h1 : v b ≤ v (if v b < v i then i else b) := by
      by_cases h : v b < v i
      · rw [if_pos h]; exact le_of_lt h
      · rw [if_neg h]
    exact le_trans h1 (le_foldl_argmax v l _)

theorem mem_le_foldl_argmax {α : Type} (v : α → K) :
    ∀ (l : List α) (b : α), ∀ i ∈ l,
      v i ≤ v (l.foldl (fun best i => if v best < v i then i else best) b)
  | [], _, k, hk => absurd hk (List.not_mem_nil k)
  | i :: l, b, k, hk => by
    rcases List.mem_cons.mp hk with h | h
    · subst h
      have h1 : v k ≤ v (if v b < v k then k else b) := by
        by_cases h2 : v b < v k
        · rw [if_pos h2]
        · rw [if_neg h2]; exact not_lt.mp h2
      exact le_trans h1 (le_foldl_argmax v l _)
    · exact mem_le_foldl_argmax v l _ k h

theorem foldl_argmax_le {α : Type} [LinearOrder α] (v : α → K) :
    ∀ (l : List α) (b : α), l.Pairwise (· < ·) → (∀ x ∈ l, b < x) →
      ∀ j, (j = b ∨ j ∈ l) → (∀ k, (k = b ∨ k ∈ l) → v k ≤ v j) →
      l.foldl (fun best i => if v best < v i then i else best) b ≤ j
  | [], b, _, _, j, hj, _ => by
    rcases hj with h | h
    · subst h; exact le_refl _
    · exact absurd h (List.not_mem_nil j)
  | i :: l, b, hpw, hbx, j, hj, hmax => by
    have hpl : l.Pairwise (· < ·) := (List.pairwise_cons.mp hpw).2
    have hil : ∀ x ∈ l, i < x := (List.pairwise_cons.mp hpw).1
    by_cases h : v b < v i
    · rw [List.foldl_cons, if_pos h]
      have hjne : j ≠ b := by
        intro hb
        subst hb
        exact absurd (lt_of_lt_of_le h (hmax i (Or.inr (List.mem_cons_self i l)))) (lt_irrefl _)
      refine foldl_argmax_le v l i hpl hil j ?_ ?_
      · rcases hj with hb | hl
        · exact absurd hb hjne
        · rcases List.mem_cons.mp hl with h1 | h1
          · exact Or.inl h1
          · exact Or.inr h1
      · intro k hk
        rcases hk with h1 | h1
        · exact hmax k (Or.inr (h1 ▸ List.mem_cons_self i l))
        · exact hmax k (Or.inr (List.mem_cons_of_mem i h1))
    · rw [List.foldl_cons, if_neg h]
      have hvi : v i ≤ v b := not_lt.mp h
      by_cases hji : j = i
      · subst hji
        have hmb : ∀ k, (k = b ∨ k ∈ l) → v k ≤ v b := by
          intro k hk
          have h1 : v k ≤ v j := by
            rcases hk with h2 | h2
            · exact hmax k (Or.inl h2)
            · exact hmax k (Or.inr (List.mem_cons_of_mem j h2))
          exact le_trans h1 hvi
        have hres : l.foldl (fun best i => if v best < v i then i else best) b ≤ b :=
          foldl_argmax_le v l b hpl
            (fun x hx => hbx x (List.mem_cons_of_mem j hx)) b (Or.inl rfl) hmb
        exact le_of_lt (lt_of_le_of_lt hres (hbx j (List.mem_cons_self j l)))
      · refine foldl_argmax_le v l b hpl
          (fun x hx => hbx x (List.mem_cons_of_mem i hx)) j ?_ ?_
        · rcases hj with h1 | h1
          · exact Or.inl h1
          · rcases List.mem_cons.mp h1 with h2 | h2
            · exact absurd h2 hji
            · exact Or.inr h2
        · intro k hk
          rcases hk with h1 | h1
          · exact hmax k (Or.inl h1)
          · exact hmax k (Or.inr (List.mem_cons_of_mem i h1))

theorem le_argmaxIdx {n : ℕ} (v : Fin (n + 1) → K) (i : Fin (n + 1)) :
    v i ≤ v (argmaxIdx v) :=
  mem_le_foldl_argmax v (List.finRange (n + 1)) 0 i (List.mem_finRange i)

theorem maxVal_eq_argmaxIdx {n : ℕ} (v : Fin (n + 1) → K) :
    maxVal v = v (argmaxIdx v) :=
  le_antisymm (Finset.sup'_le _ _ fun i _ => le_argmaxIdx v i)
    (le_maxVal v (argmaxIdx v))

/-- `argmaxIdx` returns the lowest index attaining the maximum: ties are
broken by lowest index. -/
theorem argmaxIdx_le_of_attains {n : ℕ} (v : Fin (n + 1) → K) (j : Fin (n + 1))
    (hj : ∀ k, v k ≤ v j) : argmaxIdx v ≤ j := by
  unfold argmaxIdx
  rw [List.finRange_succ_eq_map, List.foldl_cons, if_neg (lt_irrefl (v 0))]
  have hpw : ((List.finRange n).map Fin.succ).Pairwise (· < ·) := by
    refine List.Pairwise.map Fin.succ ?_ (List.pairwise_lt_finRange n)
    intro a b hab
    exact Fin.succ_lt_succ_iff.mpr hab
  have hpos : ∀ x ∈ (List.finRange n).map Fin.succ, (0 : Fin (n + 1)) < x := by
    intro x hx
    rcases List.mem_map.mp hx with ⟨y, _, hy⟩
    subst hy
    exact Fin.succ_pos y
  refine foldl_argmax_le v _ 0 hpw hpos j ?_ (fun k _ => hj k)
  rcases Fin.eq_zero_or_eq_succ j with h | ⟨y, hy⟩
  · exact Or.inl h
  · exact Or.inr (hy ▸ List.mem_map.mpr ⟨y, List.mem_finRange y, rfl⟩)

theorem argmaxIdx_smul {n : ℕ} (c : K) (hc : 0 < c) (v : Fin (n + 1) → K) :
    argmaxIdx (fun i => c * v i) = argmaxIdx v := by
  unfold argmaxIdx
  have hstep : ∀ (l : List (Fin (n + 1))) (b : Fin (n + 1)),
      l.foldl (fun best i => if c * v best < c * v i then i else best) b =
        l.foldl (fun best i => if v best < v i then i else best) b := by
    intro l
    induction l with
    | nil => intro b; rfl
    | cons i l ih =>
      intro b
      rw [List.foldl_cons, List.foldl_cons]
      have heq : (if c * v b < c * v i then i else b) =
          (if v b < v i then i else b) := by
        by_cases h : v b < v i
        · rw [if_pos h, if_pos ((mul_lt_mul_left hc).mpr h)]
        · rw [if_neg h, if_neg (fun hcc => h ((mul_lt_mul_left hc).mp hcc))]
      rw [heq, ih]
  exact hstep (List.finRange (n + 1)) 0

theorem maxVal_smul {n : ℕ} (c : K) (hc : 0 < c) (v : Fin (n + 1) → K) :
    maxVal (fun i => c * v i) = c * maxVal v := by
  rw [maxVal_eq_argmaxIdx, maxVal_eq_argmaxIdx, argmaxIdx_smul c hc v]

/-- `tmp` of the Viterbi step (line 180):
`tmp[i][j] = v_prev[i] * A[i][j] * lik[j]`. -/
def tmpMat {n : ℕ} (A : Fin (n + 1) → Fin (n + 1) → K) (lik vprev : Fin (n + 1) → K) :
    Fin (n + 1) → Fin (n + 1) → K :=
  fun i j => vprev i * A i j * lik j

/-- `bp[:] = tmp.argmax(0)` (line 181). -/
def bpRow {n : ℕ} (A : Fin (n + 1) → Fin (n + 1) → K) (lik vprev : Fin (n + 1) → K) :
    Fin (n + 1) → Fin (n + 1) :=
  fun j => argmaxIdx (fun i => tmpMat A lik vprev i j)

/-- `v[:] = tmp.max(0)` (line 182). -/
def vmaxRow {n : ℕ} (A : Fin (n + 1) → Fin (n + 1) → K) (lik vprev : Fin (n + 1) → K) :
    Fin (n + 1) → K :=
  fun j => maxVal (fun i => tmpMat A lik vprev i j)

/-- Row `t` of the Viterbi score trellis `vs` (with the per-step
renormalisation `v /= v.sum()` of line 183). -/
def vitV {n : ℕ} (piv : Fin (n + 1) → K) (A : Fin (n + 1) → Fin (n + 1) → K)
    (liks : List (Fin (n + 1) → K)) : ℕ → Fin (n + 1) → K
  | 0 => piv
  | t + 1 => normRow (vmaxRow A (liks.getD t zeroRow) (vitV piv A liks t))

/-- The full score trellis `vs` returned by `viterbiHMM`. -/
def vitVs {n : ℕ} (piv : Fin (n + 1) → K) (A : Fin (n + 1) → Fin (n + 1) → K)
    (liks : List (Fin (n + 1) → K)) : List (Fin (n + 1) → K) :=
  (List.range (liks.length + 1)).map (vitV piv A liks)

/-- Backpointer row stored at trellis index `t+1` (`bps[t+1]`). -/
def vitBP {n : ℕ} (piv : Fin (n + 1) → K) (A : Fin (n + 1) → Fin (n + 1) → K)
    (liks : List (Fin (n + 1) → K)) (t : ℕ) : Fin (n + 1) → Fin (n + 1) :=
  bpRow A (liks.getD t zeroRow) (vitV piv A liks t)

/-- Backtracking loop (lines 185-188), indexed by distance from the end:
`vitPathFrom d` is `path[T - d]`. -/
def vitPathFrom {n : ℕ} (piv : Fin (n + 1) → K) (A : Fin (n + 1) → Fin (n + 1) → K)
    (liks : List (Fin (n + 1) → K)) : ℕ → Fin (n + 1)
  | 0 => argmaxIdx (vitV piv A liks liks.length)
  | d + 1 => vitBP piv A liks (liks.length - (d + 1)) (vitPathFrom piv A liks d)

/-- The decoded state path returned by `viterbiHMM` / `viterbiHMMG`. -/
def vitPath {n : ℕ} (piv : Fin (n + 1) → K) (A : Fin (n + 1) → Fin (n + 1) → K)
    (liks : List (Fin (n + 1) → K)) : List (Fin (n + 1)) :=
  (List.range (liks.length + 1)).map
    (fun t => vitPathFrom piv A liks (liks.length - t))

/-- `viterbiHMM` / `viterbiHMMG` with the emission vectors abstracted:
returns `(path, vs)`. -/
def viterbiGen {n : ℕ} (piv : Fin (n + 1) → K) (A : Fin (n + 1) → Fin (n + 1) → K)
    (liks : List (Fin (n + 1) → K)) :
    List (Fin (n + 1)) × List (Fin (n + 1) → K) :=
  (vitPath piv A liks, vitVs piv A liks)

/-- `viterbiHMM(hmm, observations)` of the source (lines 162-190). -/
def viterbiHMM {n S1 S2 S3 : ℕ} (h : HMMcat (n + 1) S1 S2 S3 K)
    (obs : List (Fin S1 × Fin S2 × Fin S3)) :
    List (Fin (n + 1)) × List (Fin (n + 1) → K) :=
  viterbiGen h.piv h.A (obs.map (likCat h))

theorem getD_vitPath {n : ℕ} (piv : Fin (n + 1) → K) (A : Fin (n + 1) → Fin (n + 1) → K)
    (liks : List (Fin (n + 1) → K)) (t : ℕ) (h : t ≤ liks.length) :
    (vitPath piv A liks).getD t 0 = vitPathFrom piv A liks (liks.length - t) :=
  getD_range_map _ _ _ _ (Nat.lt_succ_of_le h)

theorem getD_vitVs {n : ℕ} (piv : Fin (n + 1) → K) (A : Fin (n + 1) → Fin (n + 1) → K)
    (liks : List (Fin (n + 1) → K)) (t : ℕ) (h : t ≤ liks.length) :
    (vitVs piv A liks).getD t zeroRow = vitV piv A liks t :=
  getD_range_map _ _ _ _ (Nat.lt_succ_of_le h)

/-- C3: for every model and observation sequence of length `T` the decoder
(`viterbiHMM` / `viterbiHMMG`, instances of `viterbiGen`) returns a path of
length `T+1` whose final entry is the argmax of the final score row, whose
earlier entries follow the stored backpointers
(`path[t] = backpointer[t+1][path[t+1]]`), where every argmax tie is
resolved to the lowest state index; for `T = 0` the path is
`[argmax(pi)]`. -/
theorem C3_viterbi_path {n : ℕ} (piv : Fin (n + 1) → K)
    (A : Fin (n + 1) → Fin (n + 1) → K) (liks : List (Fin (n + 1) → K)) :
    (viterbiGen piv A liks).1.length = liks.length + 1 ∧
    (viterbiGen piv A liks).1.getD liks.length 0 =
      argmaxIdx ((viterbiGen piv A liks).2.getD liks.length zeroRow) ∧
    (∀ t, t < liks.length →
      (viterbiGen piv A liks).1.getD t 0 =
        vitBP piv A liks t ((viterbiGen piv A liks).1.getD (t + 1) 0)) ∧
    (∀ v : Fin (n + 1) → K,
      (∀ i, v i ≤ v (argmaxIdx v)) ∧
      ∀ i, (∀ k, v k ≤ v i) → argmaxIdx v ≤ i) ∧
    (liks = [] → (viterbiGen piv A liks).1 = [argmaxIdx piv]) := by
  refine ⟨?_, ?_, ?_, ?_, ?_⟩
  · show (vitPath piv A liks).length = liks.length + 1
    unfold vitPath
    rw [List.length_map, List.length_range]
  · show (vitPath piv A liks).getD liks.length 0 =
      argmaxIdx ((vitVs piv A liks).getD liks.length zeroRow)
    rw [getD_vitPath piv A liks liks.length (le_refl _), Nat.sub_self,
      getD_vitVs piv A liks liks.length (le_refl _)]
    rfl
  · intro t ht
    show (vitPath piv A liks).getD t 0 =
      vitBP piv A liks t ((vitPath piv A liks).getD (t + 1) 0)
    rw [getD_vitPath piv A liks t (Nat.le_of_lt ht), getD_vitPath piv A liks (t + 1) ht]
    have h1 : liks.length - t = (liks.length - t - 1) + 1 := by omega
    rw [h1]
    show vitBP piv A liks (liks.length - ((liks.length - t - 1) + 1))
        (vitPathFrom piv A liks (liks.length - t - 1)) = _
    have h2 : liks.length - ((liks.length - t - 1) + 1) = t := by omega
    have h3 : liks.length - (t + 1) = liks.length - t - 1 := by omega
    rw [h2, h3]
  · intro v
    exact ⟨le_argmaxIdx v, fun i hi => argmaxIdx_le_of_attains v i hi⟩
  · intro h
    subst h
    rfl

/-- Concrete instantiation of C3 on a two-state model with one observation:
the first path entry is the backpointer applied to the second. -/
theorem C3_viterbi_path_witness :
    (viterbiGen ![(1:ℚ)/2, 1/2] ![![(9:ℚ)/10, 1/10], ![(1:ℚ)/10, 9/10]]
      [![(9:ℚ)/10, 1/10]]).1.getD 0 0 =
      vitBP ![(1:ℚ)/2, 1/2] ![![(9:ℚ)/10, 1/10], ![(1:ℚ)/10, 9/10]]
        [![(9:ℚ)/10, 1/10]] 0
        ((viterbiGen ![(1:ℚ)/2, 1/2] ![![(9:ℚ)/10, 1/10], ![(1:ℚ)/10, 9/10]]
          [![(9:ℚ)/10, 1/10]]).1.getD 1 0) :=
  (C3_viterbi_path ![(1:ℚ)/2, 1/2] ![![(9:ℚ)/10, 1/10], ![(1:ℚ)/10, 9/10]]
    [![(9:ℚ)/10, 1/10]]).2.2.1 0 (by norm_num)

/- C4: the same dynamic program without the per-step renormalisation
`v /= v.sum()`, the spec's reference program for the claim that
renormalising changes neither the backpointers nor the decoded path. -/

/-- Score rows of the Viterbi recursion without per-step renormalisation. -/
def vitVU {n : ℕ} (piv : Fin (n + 1) → K) (A : Fin (n + 1) → Fin (n + 1) → K)
    (liks : List (Fin (n + 1) → K)) : ℕ → Fin (n + 1) → K
  | 0 => piv
  | t + 1 => vmaxRow A (liks.getD t zeroRow) (vitVU piv A liks t)

/-- Backpointer rows of the unnormalised recursion. -/
def vitBPU {n : ℕ} (piv : Fin (n + 1) → K) (A : Fin (n + 1) → Fin (n + 1) → K)
    (liks : List (Fin (n + 1) → K)) (t : ℕ) : Fin (n + 1) → Fin (n + 1) :=
  bpRow A (liks.getD t zeroRow) (vitVU piv A liks t)

/-- Backtracking of the unnormalised recursion. -/
def vitPathFromU {n : ℕ} (piv : Fin (n + 1) → K) (A : Fin (n + 1) → Fin (n + 1) → K)
    (liks : List (Fin (n + 1) → K)) : ℕ → Fin (n + 1)
  | 0 => argmaxIdx (vitVU piv A liks liks.length)
  | d + 1 => vitBPU piv A liks (liks.length - (d + 1)) (vitPathFromU piv A liks d)

/-- Decoded path of the unnormalised recursion. -/
def vitPathU {n : ℕ} (piv : Fin (n + 1) → K) (A : Fin (n + 1) → Fin (n + 1) → K)
    (liks : List (Fin (n + 1) → K)) : List (Fin (n + 1)) :=
  (List.range (liks.length + 1)).map
    (fun t => vitPathFromU piv A liks (liks.length - t))

theorem bpRow_smul {n : ℕ} (A : Fin (n + 1) → Fin (n + 1) → K)
    (lik vprev : Fin (n + 1) → K) (c : K) (hc : 0 < c) :
    bpRow A lik (fun i => c * vprev i) = bpRow A lik vprev := by
  funext j
  show argmaxIdx (fun i => tmpMat A lik (fun i => c * vprev i) i j) = _
  have h1 : (fun i => tmpMat A lik (fun i => c * vprev i) i j) =
      (fun i => c * tmpMat A lik vprev i j) := by
    funext i
    unfold tmpMat
    ring
  rw [h1, argmaxIdx_smul c hc]
  rfl

theorem vmaxRow_smul {n : ℕ} (A : Fin (n + 1) → Fin (n + 1) → K)
    (lik vprev : Fin (n + 1) → K) (c : K) (hc : 0 < c) :
    vmaxRow A lik (fun i => c * vprev i) = fun j => c * vmaxRow A lik vprev j := by
  funext j
  show maxVal (fun i => tmpMat A lik (fun i => c * vprev i) i j) = _
  have h1 : (fun i => tmpMat A lik (fun i => c * vprev i) i j) =
      (fun i => c * tmpMat A lik vprev i j) := by
    funext i
    unfold tmpMat
    ring
  rw [h1, maxVal_smul c hc]
  rfl

theorem likD_nonneg {N : ℕ} (liks : List (Fin N → K))
    (hlik : ∀ l ∈ liks, ∀ j, 0 ≤ l j) (t : ℕ) (j : Fin N) :
    0 ≤ (liks.getD t zeroRow) j := by
  by_cases ht : t < liks.length
  · rw [List.getD_eq_getElem _ _ ht]
    exact hlik _ (List.getElem_mem ht) j
  · rw [List.getD_eq_default _ _ (Nat.le_of_not_lt ht)]
    exact le_refl 0

theorem vitV_nonneg {n : ℕ} (piv : Fin (n + 1) → K)
    (A : Fin (n + 1) → Fin (n + 1) → K) (liks : List (Fin (n + 1) → K))
    (hpi : ∀ i, 0 ≤ piv i) (hA : ∀ i j, 0 ≤ A i j)
    (hlik : ∀ l ∈ liks, ∀ j, 0 ≤ l j) :
    ∀ t i, 0 ≤ vitV piv A liks t i
  | 0, i => hpi i
  | t + 1, i => by
    show 0 ≤ normRow (vmaxRow A (liks.getD t zeroRow) (vitV piv A liks t)) i
    have hw : ∀ j, 0 ≤ vmaxRow A (liks.getD t zeroRow) (vitV piv A liks t) j := by
      intro j
      refine le_trans ?_ (le_maxVal (fun i => tmpMat A (liks.getD t zeroRow)
        (vitV piv A liks t) i j) 0)
      unfold tmpMat
      have h1 := vitV_nonneg piv A liks hpi hA hlik t 0
      have h2 := hA 0 j
      have h3 := likD_nonneg liks hlik t j
      positivity
    have hs : 0 ≤ vecSum (vmaxRow A (liks.getD t zeroRow) (vitV piv A liks t)) :=
      Finset.sum_nonneg fun j _ => hw j
    exact div_nonneg (hw i) hs

theorem vitVU_eq_smul {n : ℕ} (piv : Fin (n + 1) → K)
    (A : Fin (n + 1) → Fin (n + 1) → K) (liks : List (Fin (n + 1) → K))
    (hpi : ∀ i, 0 ≤ piv i) (hA : ∀ i j, 0 ≤ A i j)
    (hlik : ∀ l ∈ liks, ∀ j, 0 ≤ l j)
    (hnz : ∀ t, t < liks.length →
      vecSum (vmaxRow A (liks.getD t zeroRow) (vitV piv A liks t)) ≠ 0) :
    ∀ t, t ≤ liks.length →
      ∃ c : K, 0 < c ∧ vitVU piv A liks t = fun i => c * vitV piv A liks t i
  | 0, _ => ⟨1, one_pos, by funext i; rw [one_mul]; rfl⟩
  | t + 1, ht => by
    obtain ⟨c, hc, hcv⟩ :=
      vitVU_eq_smul piv A liks hpi hA hlik hnz t (Nat.le_of_succ_le ht)
    set w := vmaxRow A (liks.getD t zeroRow) (vitV piv A liks t) with hw
    have hwn : ∀ j, 0 ≤ w j := by
      intro j
      refine le_trans ?_ (le_maxVal (fun i => tmpMat A (liks.getD t zeroRow)
        (vitV piv A liks t) i j) 0)
      unfold tmpMat
      have h1 := vitV_nonneg piv A liks hpi hA hlik t 0
      have h2 := hA 0 j
      have h3 := likD_nonneg liks hlik t j
      positivity
    have hsne : vecSum w ≠ 0 := hnz t (Nat.lt_of_succ_le ht)
    have hs : 0 < vecSum w :=
      lt_of_le_of_ne (Finset.sum_nonneg fun j _ => hwn j) (Ne.symm hsne)
    refine ⟨c * vecSum w, mul_pos hc hs, ?_⟩
    show vmaxRow A (liks.getD t zeroRow) (vitVU piv A liks t) = _
    rw [hcv, vmaxRow_smul A _ _ c hc]
    funext j
    show c * w j = c * vecSum w * (normRow w) j
    unfold normRow
    rw [mul_assoc, mul_comm (vecSum w), div_mul_cancel₀ (w j) hsne]

theorem vitBPU_eq {n : ℕ} (piv : Fin (n + 1) → K)
    (A : Fin (n + 1) → Fin (n + 1) → K) (liks : List (Fin (n + 1) → K))
    (hpi : ∀ i, 0 ≤ piv i) (hA : ∀ i j, 0 ≤ A i j)
    (hlik : ∀ l ∈ liks, ∀ j, 0 ≤ l j)
    (hnz : ∀ t, t < liks.length →
      vecSum (vmaxRow A (liks.getD t zeroRow) (vitV piv A liks t)) ≠ 0)
    (t : ℕ) (ht : t ≤ liks.length) :
    vitBPU piv A liks t = vitBP piv A liks t := by
  obtain ⟨c, hc, hcv⟩ := vitVU_eq_smul piv A liks hpi hA hlik hnz t ht
  unfold vitBPU vitBP
  rw [hcv, bpRow_smul A _ _ c hc]

/-- C4: the per-step renormalisation of the Viterbi score rows changes no
argmax and no backpointer, hence not the decoded path: with nonnegative
model entries and no zero-sum intermediate score vector, the renormalised
decoder (`vitPath`, as in the source) and the identical dynamic program
without renormalisation (`vitPathU`) return the same state path and the
same backpointers. -/
theorem C4_viterbi_renorm_equiv {n : ℕ} (piv : Fin (n + 1) → K)
    (A : Fin (n + 1) → Fin (n + 1) → K) (liks : List (Fin (n + 1) → K))
    (hpi : ∀ i, 0 ≤ piv i) (hA : ∀ i j, 0 ≤ A i j)
    (hlik : ∀ l ∈ liks, ∀ j, 0 ≤ l j)
    (hnz : ∀ t, t < liks.length →
      vecSum (vmaxRow A (liks.getD t zeroRow) (vitV piv A liks t)) ≠ 0) :
    vitPathU piv A liks = vitPath piv A liks ∧
    (∀ t, t ≤ liks.length → vitBPU piv A liks t = vitBP piv A liks t) := by
  have hbp : ∀ t, t ≤ liks.length → vitBPU piv A liks t = vitBP piv A liks t :=
    fun t ht => vitBPU_eq piv A liks hpi hA hlik hnz t ht
  have hfrom : ∀ d, d ≤ liks.length →
      vitPathFromU piv A liks d = vitPathFrom piv A liks d := by
    intro d
    induction d with
    | zero =>
      intro _
      obtain ⟨c, hc, hcv⟩ :=
        vitVU_eq_smul piv A liks hpi hA hlik hnz liks.length (le_refl _)
      show argmaxIdx (vitVU piv A liks liks.length) =
        argmaxIdx (vitV piv A liks liks.length)
      rw [hcv, argmaxIdx_smul c hc]
    | succ d ih =>
      intro hd
      show vitBPU piv A liks (liks.length - (d + 1)) (vitPathFromU piv A liks d) =
        vitBP piv A liks (liks.length - (d + 1)) (vitPathFrom piv A liks d)
      rw [ih (Nat.le_of_succ_le hd), hbp (liks.length - (d + 1)) (by omega)]
  constructor
  · unfold vitPathU vitPath
    refine List.map_congr_left fun t hmem => ?_
    exact hfrom (liks.length - t) (by omega)
  · exact hbp

/-- Concrete instantiation of C4 on a two-state model with one observation:
renormalised and unnormalised decoders return the same path. -/
theorem C4_viterbi_renorm_equiv_witness :
    vitPathU ![(1:ℚ)/2, 1/2] ![![(9:ℚ)/10, 1/10], ![(1:ℚ)/10, 9/10]]
      [![(9:ℚ)/10, 1/10]] =
    vitPath ![(1:ℚ)/2, 1/2] ![![(9:ℚ)/10, 1/10], ![(1:ℚ)/10, 9/10]]
      [![(9:ℚ)/10, 1/10]] := by
  refine (C4_viterbi_renorm_equiv ![(1:ℚ)/2, 1/2]
    ![![(9:ℚ)/10, 1/10], ![(1:ℚ)/10, 9/10]] [![(9:ℚ)/10, 1/10]] ?_ ?_ ?_ ?_).1
  · intro i
    fin_cases i <;> norm_num
  · intro i j
    fin_cases i <;> fin_cases j <;> norm_num
  · intro l hl j
    rcases List.mem_cons.mp hl with h | h
    · subst h
      fin_cases j <;> norm_num
    · simp at h
  · intro t ht
    have h0 : t = 0 := Nat.lt_one_iff.mp (by simpa using ht)
    subst h0
    have hval : vecSum (vmaxRow ![![(9:ℚ)/10, 1/10], ![(1:ℚ)/10, 9/10]]
        (([![(9:ℚ)/10, 1/10]] : List (Fin 2 → ℚ)).getD 0 zeroRow)
        (vitV ![(1:ℚ)/2, 1/2] ![![(9:ℚ)/10, 1/10], ![(1:ℚ)/10, 9/10]]
          [![(9:ℚ)/10, 1/10]] 0)) =
        vecSum (vmaxRow ![![(9:ℚ)/10, 1/10], ![(1:ℚ)/10, 9/10]]
          ![(9:ℚ)/10, 1/10] ![(1:ℚ)/2, 1/2]) := rfl
    rw [hval]
    have hmax : ∀ j : Fin 2, vmaxRow ![![(9:ℚ)/10, 1/10], ![(1:ℚ)/10, 9/10]]
        ![(9:ℚ)/10, 1/10] ![(1:ℚ)/2, 1/2] j =
        maxVal (fun i => tmpMat ![![(9:ℚ)/10, 1/10], ![(1:ℚ)/10, 9/10]]
          ![(9:ℚ)/10, 1/10] ![(1:ℚ)/2, 1/2] i j) := fun j => rfl
    rw [vecSum, Fin.sum_univ_succ, Fin.sum_univ_one, hmax, hmax]
    have hpos : ∀ j : Fin 2, (0:ℚ) <
        maxVal (fun i => tmpMat ![![(9:ℚ)/10, 1/10], ![(1:ℚ)/10, 9/10]]
          ![(9:ℚ)/10, 1/10] ![(1:ℚ)/2, 1/2] i j) := by
      intro j
      refine lt_of_lt_of_le ?_ (le_maxVal _ 0)
      unfold tmpMat
      fin_cases j <;> norm_num
    have h1 := hpos 0
    have h2 := hpos 1
    positivity

/- C5: one-state models. -/

theorem normRow_fin_one (v : Fin 1 → K) (h : v 0 ≠ 0) :
    normRow v = fun _ => 1 := by
  funext i
  rw [Subsingleton.elim i 0]
  show v 0 / vecSum v = 1
  rw [vecSum_fin_one]
  exact div_self h

theorem headD_eq_getD_zero {N : ℕ} (l : List (Fin N → K)) (h : l ≠ []) :
    l.headD zeroRow = l.getD 0 zeroRow := by
  cases l with
  | nil => exact absurd rfl h
  | cons x xs => rfl

/-- A valid one-state categorical model in which every observation has
likelihood `1/8 > 0`. -/
def hHalf : HMMcat 1 2 2 2 ℚ :=
  ⟨![1], ![![1]], ![![1/2], ![1/2]], ![![1/2], ![1/2]], ![![1/2], ![1/2]]⟩

/-- C5 as frozen is false: on the valid single-state model `hHalf` with one
observation, `backwardHMM` does not return the distribution `[1.0]` at
every timestep — its final row is the unnormalised initialisation constant
`[10000000]`. -/
theorem C5_single_state_cex :
    vecSum hHalf.piv = 1 ∧ (∀ i, vecSum (hHalf.A i) = 1) ∧
    (∀ j, (∑ s, hHalf.B1 s j) = 1) ∧ (∀ j, (∑ s, hHalf.B2 s j) = 1) ∧
    (∀ j, (∑ s, hHalf.B3 s j) = 1) ∧
    (backwardHMM hHalf [((0 : Fin 2), (0 : Fin 2), (0 : Fin 2))]).getD 1 zeroRow 0 ≠ 1 := by
  refine ⟨by norm_num [hHalf, vecSum_fin_one],
    fun i => by norm_num [hHalf, vecSum_fin_one], ?_, ?_, ?_, ?_⟩
  · intro j; norm_num [hHalf, Fin.sum_univ_succ]
  · intro j; norm_num [hHalf, Fin.sum_univ_succ]
  · intro j; norm_num [hHalf, Fin.sum_univ_succ]
  · show (backwardGen hHalf.A [likCat hHalf (0, 0, 0)] (fun _ => 10000000)).getD 1
      zeroRow 0 ≠ 1
    rw [backwardGen_one]
    norm_num

/-- C5 amended: on a valid single-state model whose per-timestep emission
likelihoods are positive, Forward and the Smoother return the constant
distribution `[1.0]` at every one of the `T+1` timesteps and Viterbi
returns the all-zero path of length `T+1`; Backward however returns
strictly positive unnormalised messages whose final row is the
initialisation constant `[10000000]`, not `[1.0]`. -/
theorem C5_single_state_amended (piv : Fin 1 → K) (A : Fin 1 → Fin 1 → K)
    (liks : List (Fin 1 → K)) (hpi : vecSum piv = 1)
    (hA : ∀ i, vecSum (A i) = 1) (hlik : ∀ l ∈ liks, 0 < l 0) :
    (∀ t, t ≤ liks.length → (forwardGen piv A liks).getD t zeroRow = fun _ => 1) ∧
    (∀ t, t ≤ liks.length →
      (forward_backwardGen piv A liks).getD t zeroRow = fun _ => 1) ∧
    ((backwardGen A liks (fun _ => 10000000)).getD liks.length zeroRow =
      fun _ => 10000000) ∧ ((10000000 : K) ≠ 1) ∧
    (∀ t, t ≤ liks.length →
      0 < (backwardGen A liks (fun _ => 10000000)).getD t zeroRow 0) ∧
    (vitPath piv A liks).length = liks.length + 1 ∧
    (∀ s ∈ vitPath piv A liks, s = 0) := by
  have hA00 : A 0 0 = 1 := by
    have := hA 0
    rwa [vecSum_fin_one] at this
  have hpi0 : piv 0 = 1 := by rwa [vecSum_fin_one] at hpi
  have hlikD : ∀ t, t < liks.length → 0 < (liks.getD t zeroRow) 0 := by
    intro t ht
    rw [List.getD_eq_getElem _ _ ht]
    exact hlik _ (List.getElem_mem ht)
  have hfwd : ∀ t, t ≤ liks.length → forwardF piv A liks t = fun _ => 1 := by
    intro t
    induction t with
    | zero =>
      intro _
      funext i
      rw [Subsingleton.elim i 0]
      exact hpi0
    | succ s ih =>
      intro hs
      show normRow (forwardStep A (liks.getD s zeroRow) (forwardF piv A liks s)) =
        fun _ => 1
      rw [ih (Nat.le_of_succ_le hs)]
      refine normRow_fin_one _ ?_
      show (liks.getD s zeroRow) 0 * dotT A (fun _ => 1) 0 ≠ 0
      have hd : dotT A (fun _ => 1) 0 = 1 := by
        show (∑ i, A i 0 * 1) = 1
        rw [Fin.sum_univ_one, hA00, mul_one]
      rw [hd, mul_one]
      exact ne_of_gt (hlikD s (Nat.lt_of_succ_le hs))
  have hbwd : ∀ (ls : List (Fin 1 → K)), (∀ l ∈ ls, 0 < l 0) →
      ∀ t, t ≤ ls.length →
        0 < (backwardGen A ls (fun _ => 10000000)).getD t zeroRow 0 := by
    intro ls
    induction ls with
    | nil =>
      intro _ t ht
      have h0 : t = 0 := Nat.le_zero.mp ht
      subst h0
      show (0 : K) < 10000000
      norm_num
    | cons lik rest ih =>
      intro hls t ht
      cases t with
      | zero =>
        show 0 < backRow A lik
          ((backwardGen A rest (fun _ => 10000000)).headD zeroRow) 0
        rw [headD_eq_getD_zero _ (backwardGen_ne_nil A rest _)]
        show 0 < ∑ j, A 0 j * (lik j *
          (backwardGen A rest (fun _ => 10000000)).getD 0 zeroRow j)
        rw [Fin.sum_univ_one, hA00, one_mul]
        refine mul_pos (hls lik (List.mem_cons_self lik rest)) ?_
        exact ih (fun l hl => hls l (List.mem_cons_of_mem lik hl)) 0 (Nat.zero_le _)
      | succ s =>
        show 0 < (backwardGen A rest (fun _ => 10000000)).getD s zeroRow 0
        exact ih (fun l hl => hls l (List.mem_cons_of_mem lik hl)) s
          (Nat.le_of_succ_le_succ ht)
  refine ⟨?_, ?_, getD_last_backwardGen A liks _, by norm_num, hbwd liks hlik, ?_, ?_⟩
  · intro t ht
    rw [getD_forwardGen piv A liks t ht]
    exact hfwd t ht
  · intro t ht
    unfold forward_backwardGen
    rw [getD_smoothRows _ _ t (by rw [length_forwardGen]; omega)
      (by rw [length_backwardGen]; omega)]
    rw [getD_forwardGen piv A liks t ht, hfwd t ht]
    refine normRow_fin_one _ ?_
    show (1 : K) * (backwardGen A liks (fun _ => 10000000)).getD t zeroRow 0 ≠ 0
    rw [one_mul]
    exact ne_of_gt (hbwd liks hlik t ht)
  · unfold vitPath
    rw [List.length_map, List.length_range]
  · intro s _
    exact Subsingleton.elim (α := Fin 1) s 0

/-- Concrete instantiation of the amended C5: on a one-state model with one
positive-likelihood observation, row 0 of the smoothing posterior is the
constant distribution `[1.0]`. -/
theorem C5_single_state_witness :
    (forward_backwardGen ![(1:ℚ)] ![![(1:ℚ)]] [![(1:ℚ)/8]]).getD 0 zeroRow =
      fun _ => 1 := by
  refine (C5_single_state_amended ![(1:ℚ)] ![![(1:ℚ)]] [![(1:ℚ)/8]]
    (by norm_num [vecSum_fin_one]) (fun i => by norm_num [vecSum_fin_one]) ?_).2.1 0
    (Nat.zero_le _)
  intro l hl
  rcases List.mem_cons.mp hl with h | h
  · subst h; norm_num
  · simp at h

/- C7: the emission lookup `hmm.Bk[obs[k,t]]` is numpy basic integer
indexing on the first axis of `Bk`. -/

/-- numpy integer row indexing `arr[i]` on an array of `rows.length` rows:
an index in `[0, len)` selects that row, a negative index in `[-len, 0)`
silently wraps to row `len + i`, and anything else raises `IndexError`
(modelled as `none`). -/
def npLookup {α : Type} (rows : List α) (i : ℤ) : Option α :=
  if 0 ≤ i ∧ i < (rows.length : ℤ) then rows[i.toNat]?
  else if -(rows.length : ℤ) ≤ i ∧ i < 0 then rows[(i + rows.length).toNat]?
  else none

/-- The per-timestep categorical emission lookup
`hmm.B1[o1] * hmm.B2[o2] * hmm.B3[o3]` under numpy integer indexing;
`none` models the `IndexError` raised when any channel's lookup fails. -/
def likCatNp {N : ℕ} (B1 B2 B3 : List (Fin N → K)) (o : ℤ × ℤ × ℤ) :
    Option (Fin N → K) :=
  (npLookup B1 o.1).bind fun r1 =>
    (npLookup B2 o.2.1).bind fun r2 =>
      (npLookup B3 o.2.2).map fun r3 => fun j => r1 j * r2 j * r3 j

theorem npLookup_eq_none_iff {α : Type} (rows : List α) (i : ℤ) :
    npLookup rows i = none ↔
      (i < -(rows.length : ℤ) ∨ (rows.length : ℤ) ≤ i) := by
  unfold npLookup
  split_ifs with h1 h2
  · have hlt : i.toNat < rows.length := by omega
    rw [List.getElem?_eq_getElem hlt]
    constructor
    · intro h; exact absurd h (by simp)
    · intro h; omega
  · have hlt : (i + rows.length).toNat < rows.length := by omega
    rw [List.getElem?_eq_getElem hlt]
    constructor
    · intro h; exact absurd h (by simp)
    · intro h; omega
  · constructor
    · intro _; omega
    · intro _; rfl

/-- C7 as frozen is false: a negative categorical symbol index in
`[-num_symbols, 0)` does not fail — numpy indexing silently wraps it, so
the emission lookup returns the row of another symbol. Here index `-1` on
a 2-symbol channel returns symbol 1's row and the three-channel emission
lookup succeeds. -/
theorem C7_symbol_range_cex :
    npLookup [![(1:ℚ)/3], ![(2:ℚ)/3]] (-1) = some ![(2:ℚ)/3] ∧
    likCatNp [![(1:ℚ)/3], ![(2:ℚ)/3]] [![(1:ℚ)]] [![(1:ℚ)]] (-1, 0, 0) ≠ none := by
  constructor
  · norm_num [npLookup]
  · norm_num [likCatNp, npLookup]
    exact Option.some_ne_none _

/-- C7 amended: the categorical emission lookup used by Forward, Backward
and Viterbi fails with a lookup error iff a channel index `i` satisfies
`i ≥ num_symbols_k` or `i < -num_symbols_k` (in particular an index equal
to `num_symbols_k` fails, and it never clamps or returns zero); but a
negative index in `[-num_symbols_k, 0)` does not fail: numpy indexing
silently wraps it to the row `num_symbols_k + i`. -/
theorem C7_symbol_range_amended {N : ℕ} (B1 B2 B3 : List (Fin N → K))
    (o : ℤ × ℤ × ℤ) (rows : List (Fin N → K)) (i : ℤ) :
    (npLookup rows i = none ↔
      (i < -(rows.length : ℤ) ∨ (rows.length : ℤ) ≤ i)) ∧
    (0 ≤ i → i < (rows.length : ℤ) → npLookup rows i = rows[i.toNat]?) ∧
    (-(rows.length : ℤ) ≤ i → i < 0 →
      npLookup rows i = rows[(i + rows.length).toNat]?) ∧
    (likCatNp B1 B2 B3 o = none ↔
      (npLookup B1 o.1 = none ∨ npLookup B2 o.2.1 = none ∨
        npLookup B3 o.2.2 = none)) := by
  refine ⟨npLookup_eq_none_iff rows i, ?_, ?_, ?_⟩
  · intro h1 h2
    unfold npLookup
    rw [if_pos ⟨h1, h2⟩]
  · intro h1 h2
    unfold npLookup
    rw [if_neg (by omega), if_pos ⟨h1, h2⟩]
  · cases hb1 : npLookup B1 o.1 with
    | none => simp [likCatNp, hb1]
    | some r1 =>
      cases hb2 : npLookup B2 o.2.1 with
      | none => simp [likCatNp, hb1, hb2]
      | some r2 =>
        cases hb3 : npLookup B3 o.2.2 with
        | none => simp [likCatNp, hb1, hb2, hb3]
        | some r3 => simp [likCatNp, hb1, hb2, hb3]

/-- Concrete instantiation of the amended C7: on a 2-symbol channel the
boundary index 2 (= num_symbols) fails with a lookup error, and the
in-range negative index -1 wraps to row `2 + (-1) = 1`. -/
theorem C7_symbol_range_witness :
    npLookup [![(1:ℚ)/3], ![(2:ℚ)/3]] 2 = none ∧
    npLookup [![(1:ℚ)/3], ![(2:ℚ)/3]] (-1) =
      [![(1:ℚ)/3], ![(2:ℚ)/3]][((-1) + 2 : ℤ).toNat]? := by
  constructor
  · exact (C7_symbol_range_amended [![(1:ℚ)/3], ![(2:ℚ)/3]] [![(1:ℚ)/3]]
      [![(1:ℚ)/3]] (0, 0, 0) [![(1:ℚ)/3], ![(2:ℚ)/3]] 2).1.mpr (by norm_num)
  · exact (C7_symbol_range_amended [![(1:ℚ)/3], ![(2:ℚ)/3]] [![(1:ℚ)/3]]
      [![(1:ℚ)/3]] (0, 0, 0) [![(1:ℚ)/3], ![(2:ℚ)/3]] (-1)).2.2.1
      (by norm_num) (by norm_num)

/- Sequence generation (lines 224-267 of the source).  The numpy RNG is an
external collaborator; it is embedded as a stream `u : ℕ → K` of uniform
draws and (for the Gaussian variant) a stream `z : ℕ → K` of standard
normal draws, consumed in program order. -/

/-- `np.cumsum(dist)`. -/
def cumsum (l : List K) : List K := (l.scanl (· + ·) 0).tail

/-- `a.searchsorted(v)` (default left side) on the sorted cumulative-sum
array: the least index whose entry is `≥ v`, or the length if none. -/
def searchsorted (a : List K) (v : K) : ℕ := a.findIdx fun x => decide (v ≤ x)

/-- `sample(dist)` (lines 22-29): `dist.cumsum().searchsorted(r)` with `r`
the uniform draw. -/
def sample (dist : List K) (r : K) : ℕ := searchsorted (cumsum dist) r

/-- `sampleG(dist)` (lines 31-38): `np.random.normal(dist[0], dist[1])`,
modelled as `mean + std * z` with `z` the standard normal draw supplied by
the external randomness source. -/
def sampleG (dist : List K) (z : K) : K := dist.getD 0 0 + dist.getD 1 0 * z

/-- `hmm.A[s, :]`: row `s` of the transition matrix. -/
def rowA (AL : List (List K)) (s : ℕ) : List K := AL.getD s []

/-- `hmm.Bk[:, s]`: column `s` of an emission table. -/
def colB (BL : List (List K)) (s : ℕ) : List K := BL.map fun row => row.getD s 0

/-- Body of the `generate_sequence` loop (lines 239-243): from current
state `s` at step `i`, `m` steps remain; returns the remaining hidden
states and observation triples.  Uniform draws are consumed in program
order: draw `4*i+1` for the transition, `4*i+2 .. 4*i+4` for the three
channels. -/
def genLoop (AL B1L B2L B3L : List (List K)) (u : ℕ → K) :
    ℕ → ℕ → ℕ → List ℕ × List (ℕ × ℕ × ℕ)
  | _, _, 0 => ([], [])
  | s, i, m + 1 =>
    let s2 := sample (rowA AL s) (u (4 * i + 1))
    let o1 := sample (colB B1L s2) (u (4 * i + 2))
    let o2 := sample (colB B2L s2) (u (4 * i + 3))
    let o3 := sample (colB B3L s2) (u (4 * i + 4))
    let r := genLoop AL B1L B2L B3L u s2 (i + 1) m
    (s2 :: r.1, (o1, o2, o3) :: r.2)

/-- `generate_sequence(hmm, len_sequence)` of the source (lines 224-244),
with the model given as its probability tables and the RNG as the uniform
stream `u`. -/
def generate_sequence (piL : List K) (AL B1L B2L B3L : List (List K))
    (len : ℕ) (u : ℕ → K) : List ℕ × List (ℕ × ℕ × ℕ) :=
  let s0 := sample piL (u 0)
  let r := genLoop AL B1L B2L B3L u s0 0 len
  (s0 :: r.1, r.2)

/-- numpy float-to-int conversion (assignment into a `dtype=int` array):
truncation toward zero. -/
def truncZ [FloorRing K] (x : K) : ℤ := if 0 ≤ x then ⌊x⌋ else ⌈x⌉

/-- Body of the `generate_sequenceG` loop (lines 262-266): transitions use
uniform draw `i+1`, the three channels use standard normal draws
`3*i .. 3*i+2`; each sampled Gaussian value is stored into the `dtype=int`
observation array, hence truncated. -/
def genLoopG [FloorRing K] (AL B1L B2L B3L : List (List K)) (u z : ℕ → K) :
    ℕ → ℕ → ℕ → List ℕ × List (ℤ × ℤ × ℤ)
  | _, _, 0 => ([], [])
  | s, i, m + 1 =>
    let s2 := sample (rowA AL s) (u (i + 1))
    let o1 := truncZ (sampleG (colB B1L s2) (z (3 * i)))
    let o2 := truncZ (sampleG (colB B2L s2) (z (3 * i + 1)))
    let o3 := truncZ (sampleG (colB B3L s2) (z (3 * i + 2)))
    let r := genLoopG AL B1L B2L B3L u z s2 (i + 1) m
    (s2 :: r.1, (o1, o2, o3) :: r.2)

/-- `generate_sequenceG(hmm, len_sequence)` of the source (lines 247-267). -/
def generate_sequenceG [FloorRing K] (piL : List K) (AL B1L B2L B3L : List (List K))
    (len : ℕ) (u z : ℕ → K) : List ℕ × List (ℤ × ℤ × ℤ) :=
  let s0 := sample piL (u 0)
  let r := genLoopG AL B1L B2L B3L u z s0 0 len
  (s0 :: r.1, r.2)

theorem genLoop_spec (AL B1L B2L B3L : List (List K)) (u : ℕ → K) :
    ∀ (m : ℕ), ∀ (s i : ℕ),
      (genLoop AL B1L B2L B3L u s i m).1.length = m ∧
      (genLoop AL B1L B2L B3L u s i m).2.length = m ∧
      (∀ k, k < m →
        (s :: (genLoop AL B1L B2L B3L u s i m).1).getD (k + 1) 0 =
          sample (rowA AL ((s :: (genLoop AL B1L B2L B3L u s i m).1).getD k 0))
            (u (4 * (i + k) + 1)) ∧
        (genLoop AL B1L B2L B3L u s i m).2.getD k (0, 0, 0) =
          (sample (colB B1L ((s :: (genLoop AL B1L B2L B3L u s i m).1).getD (k + 1) 0))
              (u (4 * (i + k) + 2)),
            sample (colB B2L ((s :: (genLoop AL B1L B2L B3L u s i m).1).getD (k + 1) 0))
              (u (4 * (i + k) + 3)),
            sample (colB B3L ((s :: (genLoop AL B1L B2L B3L u s i m).1).getD (k + 1) 0))
              (u (4 * (i + k) + 4)))) := by
  intro m
  induction m with
  | zero =>
    intro s i
    exact ⟨rfl, rfl, fun k hk => absurd hk (Nat.not_lt_zero k)⟩
  | succ m ih =>
    intro s i
    obtain ⟨ih1, ih2, ih3⟩ := ih (sample (rowA AL s) (u (4 * i + 1))) (i + 1)
    refine ⟨?_, ?_, ?_⟩
    · show (sample (rowA AL s) (u (4 * i + 1)) ::
        (genLoop AL B1L B2L B3L u (sample (rowA AL s) (u (4 * i + 1))) (i + 1) m).1).length
          = m + 1
      rw [List.length_cons, ih1]
    · show ((sample (colB B1L (sample (rowA AL s) (u (4 * i + 1)))) (u (4 * i + 2)),
          sample (colB B2L (sample (rowA AL s) (u (4 * i + 1)))) (u (4 * i + 3)),
          sample (colB B3L (sample (rowA AL s) (u (4 * i + 1)))) (u (4 * i + 4))) ::
        (genLoop AL B1L B2L B3L u (sample (rowA AL s) (u (4 * i + 1))) (i + 1) m).2).length
          = m + 1
      rw [List.length_cons, ih2]
    · intro k hk
      cases k with
      | zero =>
        constructor
        · show sample (rowA AL s) (u (4 * i + 1)) =
            sample (rowA AL s) (u (4 * (i + 0) + 1))
          norm_num
        · show (sample (colB B1L (sample (rowA AL s) (u (4 * i + 1)))) (u (4 * i + 2)),
            sample (colB B2L (sample (rowA AL s) (u (4 * i + 1)))) (u (4 * i + 3)),
            sample (colB B3L (sample (rowA AL s) (u (4 * i + 1)))) (u (4 * i + 4))) =
            (sample (colB B1L (sample (rowA AL s) (u (4 * i + 1)))) (u (4 * (i + 0) + 2)),
            sample (colB B2L (sample (rowA AL s) (u (4 * i + 1)))) (u (4 * (i + 0) + 3)),
            sample (colB B3L (sample (rowA AL s) (u (4 * i + 1)))) (u (4 * (i + 0) + 4)))
          norm_num
      | succ k =>
        have hk2 : k < m := Nat.lt_of_succ_lt_succ hk
        obtain ⟨h1, h2⟩ := ih3 k hk2
        have hidx : (i + 1) + k = i + (k + 1) := by omega
        rw [hidx] at h1 h2
        exact ⟨h1, h2⟩

theorem genLoopG_spec [FloorRing K] (AL B1L B2L B3L : List (List K)) (u z : ℕ → K) :
    ∀ (m : ℕ), ∀ (s i : ℕ),
      (genLoopG AL B1L B2L B3L u z s i m).1.length = m ∧
      (genLoopG AL B1L B2L B3L u z s i m).2.length = m ∧
      (∀ k, k < m →
        (s :: (genLoopG AL B1L B2L B3L u z s i m).1).getD (k + 1) 0 =
          sample (rowA AL ((s :: (genLoopG AL B1L B2L B3L u z s i m).1).getD k 0))
            (u ((i + k) + 1)) ∧
        (genLoopG AL B1L B2L B3L u z s i m).2.getD k (0, 0, 0) =
          (truncZ (sampleG (colB B1L
              ((s :: (genLoopG AL B1L B2L B3L u z s i m).1).getD (k + 1) 0))
              (z (3 * (i + k)))),
            truncZ (sampleG (colB B2L
              ((s :: (genLoopG AL B1L B2L B3L u z s i m).1).getD (k + 1) 0))
              (z (3 * (i + k) + 1))),
            truncZ (sampleG (colB B3L
              ((s :: (genLoopG AL B1L B2L B3L u z s i m).1).getD (k + 1) 0))
              (z (3 * (i + k) + 2))))) := by
  intro m
  induction m with
  | zero =>
    intro s i
    exact ⟨rfl, rfl, fun k hk => absurd hk (Nat.not_lt_zero k)⟩
  | succ m ih =>
    intro s i
    obtain ⟨ih1, ih2, ih3⟩ := ih (sample (rowA AL s) (u (i + 1))) (i + 1)
    refine ⟨?_, ?_, ?_⟩
    · show (sample (rowA AL s) (u (i + 1)) ::
        (genLoopG AL B1L B2L B3L u z (sample (rowA AL s) (u (i + 1))) (i + 1) m).1).length
          = m + 1
      rw [List.length_cons, ih1]
    · show ((truncZ (sampleG (colB B1L (sample (rowA AL s) (u (i + 1)))) (z (3 * i))),
          truncZ (sampleG (colB B2L (sample (rowA AL s) (u (i + 1)))) (z (3 * i + 1))),
          truncZ (sampleG (colB B3L (sample (rowA AL s) (u (i + 1)))) (z (3 * i + 2)))) ::
        (genLoopG AL B1L B2L B3L u z (sample (rowA AL s) (u (i + 1))) (i + 1) m).2).length
          = m + 1
      rw [List.length_cons, ih2]
    · intro k hk
      cases k with
      | zero =>
        constructor
        · show sample (rowA AL s) (u (i + 1)) =
            sample (rowA AL s) (u ((i + 0) + 1))
          norm_num
        · show (truncZ (sampleG (colB B1L (sample (rowA AL s) (u (i + 1)))) (z (3 * i))),
            truncZ (sampleG (colB B2L (sample (rowA AL s) (u (i + 1)))) (z (3 * i + 1))),
            truncZ (sampleG (colB B3L (sample (rowA AL s) (u (i + 1)))) (z (3 * i + 2)))) =
            (truncZ (sampleG (colB B1L (sample (rowA AL s) (u (i + 1)))) (z (3 * (i + 0)))),
            truncZ (sampleG (colB B2L (sample (rowA AL s) (u (i + 1)))) (z (3 * (i + 0) + 1))),
            truncZ (sampleG (colB B3L (sample (rowA AL s) (u (i + 1)))) (z (3 * (i + 0) + 2))))
          norm_num
      | succ k =>
        have hk2 : k < m := Nat.lt_of_succ_lt_succ hk
        obtain ⟨h1, h2⟩ := ih3 k hk2
        have hidx : (i + 1) + k = i + (k + 1) := by omega
        rw [hidx] at h1 h2
        exact ⟨h1, h2⟩

/-- C8: `generate_sequence` (and its Gaussian counterpart
`generate_sequenceG`) returns a hidden-state sequence of exactly `L+1`
entries whose entry 0 is drawn from `pi` and whose entry `i+1` is drawn
from row `hidden[i]` of `A`, together with exactly `L` observation
triples whose channel-`k` component at step `i` is drawn from the emission
distribution of the destination state `hidden[i+1]` — column
`hidden[i+1]` of `Bk` — never from state 0 directly. -/
theorem C8_generator (piL : List K) (AL B1L B2L B3L : List (List K))
    [FloorRing K] (len : ℕ) (u z : ℕ → K) :
    (generate_sequence piL AL B1L B2L B3L len u).1.length = len + 1 ∧
    (generate_sequence piL AL B1L B2L B3L len u).2.length = len ∧
    (generate_sequence piL AL B1L B2L B3L len u).1.getD 0 0 = sample piL (u 0) ∧
    (∀ k, k < len →
      (generate_sequence piL AL B1L B2L B3L len u).1.getD (k + 1) 0 =
        sample (rowA AL ((generate_sequence piL AL B1L B2L B3L len u).1.getD k 0))
          (u (4 * k + 1)) ∧
      (generate_sequence piL AL B1L B2L B3L len u).2.getD k (0, 0, 0) =
        (sample (colB B1L
            ((generate_sequence piL AL B1L B2L B3L len u).1.getD (k + 1) 0))
            (u (4 * k + 2)),
          sample (colB B2L
            ((generate_sequence piL AL B1L B2L B3L len u).1.getD (k + 1) 0))
            (u (4 * k + 3)),
          sample (colB B3L
            ((generate_sequence piL AL B1L B2L B3L len u).1.getD (k + 1) 0))
            (u (4 * k + 4)))) ∧
    (generate_sequenceG piL AL B1L B2L B3L len u z).1.length = len + 1 ∧
    (generate_sequenceG piL AL B1L B2L B3L len u z).2.length = len ∧
    (generate_sequenceG piL AL B1L B2L B3L len u z).1.getD 0 0 = sample piL (u 0) ∧
    (∀ k, k < len →
      (generate_sequenceG piL AL B1L B2L B3L len u z).1.getD (k + 1) 0 =
        sample (rowA AL ((generate_sequenceG piL AL B1L B2L B3L len u z).1.getD k 0))
          (u (k + 1)) ∧
      (generate_sequenceG piL AL B1L B2L B3L len u z).2.getD k (0, 0, 0) =
        (truncZ (sampleG (colB B1L
            ((generate_sequenceG piL AL B1L B2L B3L len u z).1.getD (k + 1) 0))
            (z (3 * k))),
          truncZ (sampleG (colB B2L
            ((generate_sequenceG piL AL B1L B2L B3L len u z).1.getD (k + 1) 0))
            (z (3 * k + 1))),
          truncZ (sampleG (colB B3L
            ((generate_sequenceG piL AL B1L B2L B3L len u z).1.getD (k + 1) 0))
            (z (3 * k + 2))))) := by
  obtain ⟨h1, h2, h3⟩ := genLoop_spec AL B1L B2L B3L u len (sample piL (u 0)) 0
  obtain ⟨g1, g2, g3⟩ := genLoopG_spec AL B1L B2L B3L u z len (sample piL (u 0)) 0
  refine ⟨?_, h2, rfl, ?_, ?_, g2, rfl, ?_⟩
  · show (sample piL (u 0) ::
      (genLoop AL B1L B2L B3L u (sample piL (u 0)) 0 len).1).length = len + 1
    rw [List.length_cons, h1]
  · intro k hk
    obtain ⟨hh, ho⟩ := h3 k hk
    rw [Nat.zero_add] at hh ho
    exact ⟨hh, ho⟩
  · show (sample piL (u 0) ::
      (genLoopG AL B1L B2L B3L u z (sample piL (u 0)) 0 len).1).length = len + 1
    rw [List.length_cons, g1]
  · intro k hk
    obtain ⟨hh, ho⟩ := g3 k hk
    rw [Nat.zero_add] at hh ho
    exact ⟨hh, ho⟩

/-- Concrete instantiation of C8 with `L = 1` on a two-state model: the
hidden path has 2 entries, there is 1 observation triple, and its first
channel is drawn from the column of `B1` selected by hidden entry 1. -/
theorem C8_generator_witness :
    (generate_sequence [(1:ℚ)/2, 1/2] [[(9:ℚ)/10, 1/10], [(1:ℚ)/10, 9/10]]
      [[(1:ℚ)/2, 1/2], [(1:ℚ)/2, 1/2]] [[(1:ℚ)/2, 1/2], [(1:ℚ)/2, 1/2]]
      [[(1:ℚ)/2, 1/2], [(1:ℚ)/2, 1/2]] 1 (fun _ => 0)).1.length = 2 ∧
    (generate_sequence [(1:ℚ)/2, 1/2] [[(9:ℚ)/10, 1/10], [(1:ℚ)/10, 9/10]]
      [[(1:ℚ)/2, 1/2], [(1:ℚ)/2, 1/2]] [[(1:ℚ)/2, 1/2], [(1:ℚ)/2, 1/2]]
      [[(1:ℚ)/2, 1/2], [(1:ℚ)/2, 1/2]] 1 (fun _ => 0)).2.getD 0 (0, 0, 0) =
      (sample (colB [[(1:ℚ)/2, 1/2], [(1:ℚ)/2, 1/2]]
          ((generate_sequence [(1:ℚ)/2, 1/2] [[(9:ℚ)/10, 1/10], [(1:ℚ)/10, 9/10]]
            [[(1:ℚ)/2, 1/2], [(1:ℚ)/2, 1/2]] [[(1:ℚ)/2, 1/2], [(1:ℚ)/2, 1/2]]
            [[(1:ℚ)/2, 1/2], [(1:ℚ)/2, 1/2]] 1 (fun _ => 0)).1.getD 1 0))
          ((fun _ => (0:ℚ)) 2),
        sample (colB [[(1:ℚ)/2, 1/2], [(1:ℚ)/2, 1/2]]
          ((generate_sequence [(1:ℚ)/2, 1/2] [[(9:ℚ)/10, 1/10], [(1:ℚ)/10, 9/10]]
            [[(1:ℚ)/2, 1/2], [(1:ℚ)/2, 1/2]] [[(1:ℚ)/2, 1/2], [(1:ℚ)/2, 1/2]]
            [[(1:ℚ)/2, 1/2], [(1:ℚ)/2, 1/2]] 1 (fun _ => 0)).1.getD 1 0))
          ((fun _ => (0:ℚ)) 3),
        sample (colB [[(1:ℚ)/2, 1/2], [(1:ℚ)/2, 1/2]]
          ((generate_sequence [(1:ℚ)/2, 1/2] [[(9:ℚ)/10, 1/10], [(1:ℚ)/10, 9/10]]
            [[(1:ℚ)/2, 1/2], [(1:ℚ)/2, 1/2]] [[(1:ℚ)/2, 1/2], [(1:ℚ)/2, 1/2]]
            [[(1:ℚ)/2, 1/2], [(1:ℚ)/2, 1/2]] 1 (fun _ => 0)).1.getD 1 0))
          ((fun _ => (0:ℚ)) 4)) := by
  obtain ⟨ha, _, _, hb, _⟩ := C8_generator [(1:ℚ)/2, 1/2]
    [[(9:ℚ)/10, 1/10], [(1:ℚ)/10, 9/10]]
    [[(1:ℚ)/2, 1/2], [(1:ℚ)/2, 1/2]] [[(1:ℚ)/2, 1/2], [(1:ℚ)/2, 1/2]]
    [[(1:ℚ)/2, 1/2], [(1:ℚ)/2, 1/2]] 1 (fun _ => 0) (fun _ => 0)
  exact ⟨ha, (hb 0 (by norm_num)).2⟩

/-- C9 evaluation at the failing input: a one-state Gaussian model with
`(mean, std) = (1/2, 1)` on every channel, length 1, and all randomness
draws 0.  The Gaussian value drawn from the destination state's column is
`1/2`, but the observation triple returned by `generate_sequenceG` is the
truncated integer `(0, 0, 0)` — the `dtype=int` observation array discards
the real-valued draw. -/
theorem C9_gaussian_obs_eval :
    (generate_sequenceG [(1:ℚ)] [[(1:ℚ)]] [[(1:ℚ)/2], [(1:ℚ)]]
      [[(1:ℚ)/2], [(1:ℚ)]] [[(1:ℚ)/2], [(1:ℚ)]] 1
      (fun _ => 0) (fun _ => 0)).2 = [((0:ℤ), (0:ℤ), (0:ℤ))] ∧
    sampleG (colB [[(1:ℚ)/2], [(1:ℚ)]]
      ((generate_sequenceG [(1:ℚ)] [[(1:ℚ)]] [[(1:ℚ)/2], [(1:ℚ)]]
        [[(1:ℚ)/2], [(1:ℚ)]] [[(1:ℚ)/2], [(1:ℚ)]] 1
        (fun _ => 0) (fun _ => 0)).1.getD 1 0)) ((fun _ => (0:ℚ)) 0) = 1/2 ∧
    ((1:ℚ)/2 ≠ ((0:ℤ) : ℚ)) := by
  have hs : sample [(1:ℚ)] 0 = 0 := by
    norm_num [sample, searchsorted, cumsum, List.scanl, List.findIdx, List.findIdx.go]
  have hrow : rowA [[(1:ℚ)]] 0 = [(1:ℚ)] := rfl
  have hcol : colB [[(1:ℚ)/2], [(1:ℚ)]] 0 = [(1:ℚ)/2, 1] := rfl
  have hsg : sampleG [(1:ℚ)/2, 1] 0 = 1/2 := by
    norm_num [sampleG]
  have htr : truncZ ((1:ℚ)/2) = 0 := by
    rw [truncZ, if_pos (by norm_num)]
    norm_num [Int.floor_eq_zero_iff]
  have hgen : generate_sequenceG [(1:ℚ)] [[(1:ℚ)]] [[(1:ℚ)/2], [(1:ℚ)]]
      [[(1:ℚ)/2], [(1:ℚ)]] [[(1:ℚ)/2], [(1:ℚ)]] 1 (fun _ => 0) (fun _ => 0) =
      ([sample [(1:ℚ)] 0, sample (rowA [[(1:ℚ)]] (sample [(1:ℚ)] 0)) 0],
        [(truncZ (sampleG (colB [[(1:ℚ)/2], [(1:ℚ)]]
            (sample (rowA [[(1:ℚ)]] (sample [(1:ℚ)] 0)) 0)) 0),
          truncZ (sampleG (colB [[(1:ℚ)/2], [(1:ℚ)]]
            (sample (rowA [[(1:ℚ)]] (sample [(1:ℚ)] 0)) 0)) 0),
          truncZ (sampleG (colB [[(1:ℚ)/2], [(1:ℚ)]]
            (sample (rowA [[(1:ℚ)]] (sample [(1:ℚ)] 0)) 0)) 0))]) := rfl
  rw [hgen]
  refine ⟨?_, ?_, by norm_num⟩
  · show [(truncZ (sampleG (colB [[(1:ℚ)/2], [(1:ℚ)]]
        (sample (rowA [[(1:ℚ)]] (sample [(1:ℚ)] 0)) 0)) 0),
      truncZ (sampleG (colB [[(1:ℚ)/2], [(1:ℚ)]]
        (sample (rowA [[(1:ℚ)]] (sample [(1:ℚ)] 0)) 0)) 0),
      truncZ (sampleG (colB [[(1:ℚ)/2], [(1:ℚ)]]
        (sample (rowA [[(1:ℚ)]] (sample [(1:ℚ)] 0)) 0)) 0))] = [((0:ℤ), (0:ℤ), (0:ℤ))]
    rw [hs, hrow, hs, hcol, hsg, htr]
  · show sampleG (colB [[(1:ℚ)/2], [(1:ℚ)]]
      (sample (rowA [[(1:ℚ)]] (sample [(1:ℚ)] 0)) 0)) 0 = 1/2
    rw [hs, hrow, hs, hcol, hsg]

end SantaHMM
